import Mathlib

/-!
Verification of the versioned incremental-computation engine core
(`dice/dice/src/impls/dice.rs`) and of the Starlark type-union
normalisation (`starlark/src/typing/ty.rs`).

The Starlark part is a direct shallow embedding of `Ty`, `Ty::unions`,
`Ty::union2` and `Ty::indexed`.  The payloads of `Ty::Struct` and
`Ty::Custom` are opaque to `ty.rs` (their definitions live in modules
outside the sources at hand), so they are embedded as opaque ordered
tokens (`Nat`), and the struct-merging function `TyStruct::union2` is a
parameter of the development.

The dice part embeds what `dice.rs` itself defines (the `DiceModern`
facade, `detect_cycles`, `is_idle`) and models the core state actor
(`impls/core/state.rs`), the transaction machinery and the task registry
from the specification, since those modules are not among the sources.
-/

namespace Starlark

/-- Embedding of `enum Ty` from `typing/ty.rs`.  `Union(TyUnion)` carries the
vector of alternatives; `Dict(Box<(Ty, Ty)>)` carries the key and value
types; `Name(TyName)` carries the name string.  The payloads of `Struct`
and `Custom` are defined outside `ty.rs` and are embedded as opaque
ordered tokens. -/
inductive Ty : Type where
  | never : Ty
  | any : Ty
  | union : List Ty → Ty
  | name : String → Ty
  | iter : Ty → Ty
  | list : Ty → Ty
  | tuple : List Ty → Ty
  | dict : Ty → Ty → Ty
  | struct : Nat → Ty
  | custom : Nat → Ty

/-- Discriminant of a `Ty` value, in declaration order, as used by the
derived `Ord` instance in Rust. -/
def Ty.rank : Ty → Nat
  | .never => 0
  | .any => 1
  | .union _ => 2
  | .name _ => 3
  | .iter _ => 4
  | .list _ => 5
  | .tuple _ => 6
  | .dict _ _ => 7
  | .struct _ => 8
  | .custom _ => 9

/-- Three-way comparison on a linearly ordered type; the semantics of
`Ord::cmp` on the primitive payload types. -/
def lcmp {α : Type} [LinearOrder α] (a b : α) : Ordering :=
  if a < b then .lt else if a = b then .eq else .gt

mutual

/-- The derived `Ord` instance on `Ty`: compare discriminants first, then
the payloads lexicographically.  Vectors compare lexicographically
element by element, shorter prefixes first. -/
def Ty.cmp : Ty → Ty → Ordering
  | .union xs, .union ys => Ty.cmpList xs ys
  | .name a, .name b => lcmp a b
  | .iter a, .iter b => Ty.cmp a b
  | .list a, .list b => Ty.cmp a b
  | .tuple xs, .tuple ys => Ty.cmpList xs ys
  | .dict k1 v1, .dict k2 v2 => (Ty.cmp k1 k2).then (Ty.cmp v1 v2)
  | .struct a, .struct b => lcmp a b
  | .custom a, .custom b => lcmp a b
  | a, b => lcmp a.rank b.rank

/-- Lexicographic comparison of `Vec<Ty>`, as in the derived `Ord` for
`Vec`. -/
def Ty.cmpList : List Ty → List Ty → Ordering
  | [], [] => .eq
  | [], _ :: _ => .lt
  | _ :: _, [] => .gt
  | x :: xs, y :: ys => (Ty.cmp x y).then (Ty.cmpList xs ys)

end

mutual

/-- Size of a type term, used to supply recursion fuel for
`Ty.unions`. -/
def Ty.tsize : Ty → Nat
  | .never => 1
  | .any => 1
  | .union xs => Ty.tsizeList xs + 1
  | .name _ => 1
  | .iter a => Ty.tsize a + 1
  | .list a => Ty.tsize a + 1
  | .tuple xs => Ty.tsizeList xs + 1
  | .dict k v => Ty.tsize k + Ty.tsize v + 1
  | .struct _ => 1
  | .custom _ => 1

/-- Total size of a list of type terms. -/
def Ty.tsizeList : List Ty → Nat
  | [] => 0
  | x :: xs => Ty.tsize x + Ty.tsizeList xs

end

/-- The comparison restricted to same-discriminant pairs; used to state
the decomposition of `Ty.cmp` into a rank comparison followed by a
payload comparison. -/
def Ty.cmpSame (a b : Ty) : Ordering :=
  match a, b with
  | .union xs, .union ys => Ty.cmpList xs ys
  | .name a, .name b => lcmp a b
  | .iter a, .iter b => Ty.cmp a b
  | .list a, .list b => Ty.cmp a b
  | .tuple xs, .tuple ys => Ty.cmpList xs ys
  | .dict k1 v1, .dict k2 v2 => (Ty.cmp k1 k2).then (Ty.cmp v1 v2)
  | .struct a, .struct b => lcmp a b
  | .custom a, .custom b => lcmp a b
  | _, _ => .eq

/-- The derived `PartialEq` on `Ty` (structural equality); used by
`Vec::dedup` and `Vec::contains`.  It agrees with `Ty.cmp = .eq`. -/
def Ty.beq (a b : Ty) : Bool := Ty.cmp a b == Ordering.eq

/-- The `≤` relation induced by the derived `Ord`, as used by
`Vec::sort`. -/
def Ty.le (a b : Ty) : Prop := Ty.cmp a b ≠ Ordering.gt

/-- The strict `<` relation induced by the derived `Ord`. -/
def Ty.ltRel (a b : Ty) : Prop := Ty.cmp a b = Ordering.lt

instance : DecidableRel Ty.le :=
  fun a b => inferInstanceAs (Decidable (Ty.cmp a b ≠ Ordering.gt))

instance : DecidableRel Ty.ltRel :=
  fun a b => inferInstanceAs (Decidable (Ty.cmp a b = Ordering.lt))

/-- `Ty::into_iter_union`: the alternatives of a union, the empty
sequence for `Never`, and the singleton sequence otherwise. -/
def Ty.intoIterUnion : Ty → List Ty
  | .union xs => xs
  | .never => []
  | t => [t]

/-- `xs.into_iter().flat_map(|x| x.into_iter_union())`, the first step of
`Ty::unions`. -/
def flatMapUnion : List Ty → List Ty
  | [] => []
  | x :: xs => Ty.intoIterUnion x ++ flatMapUnion xs

/-- `Vec::dedup`: remove consecutive duplicates.  (When the two heads are
equal the kept representative is the same value either way.) -/
def dedupAdj : List Ty → List Ty
  | [] => []
  | [x] => [x]
  | x :: y :: rest =>
    if Ty.beq x y then dedupAdj (y :: rest) else x :: dedupAdj (y :: rest)

/-- Recognisers for the three mergeable shapes in `Ty::unions`. -/
def Ty.isList : Ty → Bool
  | .list _ => true
  | _ => false

def Ty.isDict : Ty → Bool
  | .dict _ _ => true
  | _ => false

def Ty.isStruct : Ty → Bool
  | .struct _ => true
  | _ => false

def Ty.isUnion : Ty → Bool
  | .union _ => true
  | _ => false

/-- The type of `TyStruct::union2`.  The struct payload lives outside
`ty.rs`, so struct merging is a parameter of the embedding: on success it
returns the merged payload, on failure it gives both payloads back. -/
abbrev StructUnion : Type := Nat → Nat → Sum Nat (Nat × Nat)

/-- The merging closure passed to `merge_adjacent` inside `Ty::unions`:
adjacent lists merge into a list of the union of the element types,
adjacent dicts merge key-wise and value-wise, adjacent structs merge
according to `TyStruct::union2`, and everything else is kept as is.
`u2` is the recursive entry into `Ty::union2`. -/
def Ty.mergeFn (su : StructUnion) (u2 : Ty → Ty → Ty) : Ty → Ty → Sum Ty (Ty × Ty) :=
  fun a b =>
    match a, b with
    | .list x, .list y => .inl (.list (u2 x y))
    | .dict k1 v1, .dict k2 v2 => .inl (.dict (u2 k1 k2) (u2 v1 v2))
    | .struct x, .struct y =>
      match su x y with
      | .inl u => .inl (.struct u)
      | .inr (x2, y2) => .inr (.struct x2, .struct y2)
    | x, y => .inr (x, y)

/-- The loop body of `merge_adjacent`, with `l` playing the role of the
`last` accumulator. -/
def mergeAdjacentGo (f : Ty → Ty → Sum Ty (Ty × Ty)) : Ty → List Ty → List Ty
  | l, [] => [l]
  | l, x :: xs =>
    match f l x with
    | .inl m => mergeAdjacentGo f m xs
    | .inr (l2, x2) => l2 :: mergeAdjacentGo f x2 xs

/-- `merge_adjacent` from `ty.rs`: fold the list, merging adjacent
elements whenever `f` returns `Left`. -/
def mergeAdjacent (f : Ty → Ty → Sum Ty (Ty × Ty)) : List Ty → List Ty
  | [] => []
  | x :: xs => mergeAdjacentGo f x xs

/-- Fuelled version of `Ty::unions`.  The Rust function recurses (through
the merging closure) into strictly shallower types, which does not map
onto structural recursion, so the recursion depth is made explicit as
fuel; `Ty.unions` below supplies fuel exceeding any reachable recursion
depth (each nested call descends into payloads of strictly smaller
size).  Sorting is insertion sort; since the derived order is total and
antisymmetric, sorted permutations of a list are unique, so this agrees
with the result of Rust's `Vec::sort`.  Pipeline, in source order:
flatten unions, sort, dedup, drop
`Never`, short-circuit on `Any`, merge adjacent mergeable pairs, then
rebuild: empty to `Never`, singleton to the element, otherwise a
`Union`. -/
def Ty.unionsFuel (su : StructUnion) : Nat → List Ty → Ty
  | 0, _ => .never
  | n + 1, xs =>
    let ys1 := List.insertionSort Ty.le (flatMapUnion xs)
    let ys2 := dedupAdj ys1
    let ys3 := ys2.filter (fun t => !(Ty.beq t .never))
    if ys3.any (fun t => Ty.beq t .any) then .any
    else
      match mergeAdjacent (Ty.mergeFn su (fun a b => Ty.unionsFuel su n [a, b])) ys3 with
      | [] => .never
      | [t] => t
      | ys4 => .union ys4

/-- `Ty::unions`, the normalising union constructor. -/
def Ty.unions (su : StructUnion) (xs : List Ty) : Ty :=
  Ty.unionsFuel su (Ty.tsizeList xs + 1) xs

/-- `Ty::union2`: the binary union. -/
def Ty.union2 (su : StructUnion) (a b : Ty) : Ty :=
  Ty.unions su [a, b]

/-- `Ty::indexed`: the type of `self[i]`. -/
def Ty.indexed (su : StructUnion) : Ty → Nat → Ty
  | .any, _ => .any
  | .never, _ => .never
  | .list x, _ => x
  | .tuple xs, i => xs.getD i .never
  | .union xs, i => Ty.unions su (xs.attach.map (fun z => Ty.indexed su z.1 i))
  | _, _ => .any
termination_by t _ => sizeOf t
decreasing_by
  have := List.sizeOf_lt_of_mem z.2
  simp only [Ty.union.sizeOf_spec]
  omega

end Starlark

namespace Dice

/-- The per-task state machine from the specification:
`Scheduled → Running → {Completed, Failed, Cancelled}`. -/
inductive TaskState : Type where
  | scheduled : TaskState
  | running : TaskState
  | completed : TaskState
  | failed : TaskState
  | cancelled : TaskState
deriving DecidableEq

/-- `is_terminated` on a task handle: whether the task has reached a
terminal state of the state machine. -/
def TaskState.isTerminated : TaskState → Bool
  | .completed => true
  | .failed => true
  | .cancelled => true
  | _ => false

/-- A Pending Computation Task: one outstanding asynchronous evaluation
of a (key identifier, version) pair. -/
structure PendingTask where
  key : Nat
  version : Nat
  state : TaskState
deriving DecidableEq

/-- `DiceData`: the global, engine-instance-scoped configuration store,
modelled as slots keyed by opaque tokens. -/
structure DiceData where
  entries : List (Nat × Nat)
deriving DecidableEq

def DiceData.new : DiceData := ⟨[]⟩

/-- Stage or apply an overwrite of one global slot (last write wins). -/
def DiceData.set (d : DiceData) (slot val : Nat) : DiceData :=
  ⟨(slot, val) :: d.entries.filter (fun e => decide (e.1 ≠ slot))⟩

/-- Modelled from the spec: the state owned by the Core State Actor
(`impls/core/state.rs`, not among the sources) — the key index, the
dependency graph, the global data, the version counter, the
shutting-down flag and the registry of pending computation tasks. -/
structure EngineState where
  keyIndex : List Nat
  graph : List (Nat × List Nat)
  globalData : DiceData
  version : Nat
  shutdown : Bool
  tasks : List PendingTask

/-- Modelled from the spec: `init_state` — the fresh actor state. -/
def initState : EngineState :=
  { keyIndex := [], graph := [], globalData := DiceData.new, version := 0,
    shutdown := false, tasks := [] }

/-- `DetectCycles` from `api/cycles.rs`. -/
inductive DetectCycles : Type where
  | Enabled : DetectCycles
  | Disabled : DetectCycles
deriving DecidableEq

/-- `DiceModern` from `dice.rs`: the key index, the actor state handle
and the global data. -/
structure DiceModern where
  key_index : List Nat
  state : EngineState
  global_data : DiceData

/-- `DiceModern::new`: default key index, fresh actor state, supplied
global data. -/
def DiceModern.new (global_data : DiceData) : DiceModern :=
  { key_index := [], state := initState, global_data := global_data }

/-- `DiceModernDataBuilder` from `dice.rs`. -/
structure DiceModernDataBuilder where
  data : DiceData

def DiceModernDataBuilder.new : DiceModernDataBuilder := ⟨DiceData.new⟩

def DiceModernDataBuilder.set (b : DiceModernDataBuilder) (slot val : Nat) :
    DiceModernDataBuilder :=
  ⟨b.data.set slot val⟩

/-- `DiceModernDataBuilder::build(self, _detect_cycles)`: note that the
source ignores the `_detect_cycles` argument. -/
def DiceModernDataBuilder.build (b : DiceModernDataBuilder)
    (_detect_cycles : DetectCycles) : DiceModern :=
  DiceModern.new b.data

/-- `DiceModern::detect_cycles`: the source returns the constant
`DetectCycles::Disabled` (modern dice does not support cycle detection
yet). -/
def DiceModern.detect_cycles (_d : DiceModern) : DetectCycles :=
  DetectCycles.Disabled

/-- Modelled from the spec: the reply to the
`GetTasksPendingCancellation` actor request — a snapshot of the
currently outstanding Pending Computation Tasks. -/
def EngineState.tasksPendingCancellation (s : EngineState) : List PendingTask :=
  s.tasks

/-- `DiceModern::is_idle`: request the pending-cancellation snapshot and
check that every task in it is terminated. -/
def DiceModern.is_idle (d : DiceModern) : Bool :=
  (d.state.tasksPendingCancellation).all (fun t => t.state.isTerminated)

/-- Modelled from the spec: `DiceModern::wait_for_idle` requests the
pending-cancellation snapshot and awaits `join_all` over the task
futures; the returned future resolves exactly when every task of the
snapshot has reached a terminal state.  This proposition states that the
future has resolved. -/
def waitForIdleResolved (d : DiceModern) : Prop :=
  ∀ t ∈ d.state.tasksPendingCancellation, t.state.isTerminated = true

/-- The metrics counters snapshot. -/
structure Metrics where
  keyCount : Nat
  nodeCount : Nat
  currentVersion : Nat
deriving DecidableEq

/-- The full graph snapshot handed to introspection consumers. -/
structure GraphIntrospectable where
  nodes : List (Nat × List Nat)
  keyMap : List Nat

/-- Modelled from the spec: the actor's handler for the `Metrics`
request — read-only counters extracted from the state. -/
def EngineState.processMetrics (s : EngineState) : EngineState × Metrics :=
  (s, { keyCount := s.keyIndex.length, nodeCount := s.graph.length,
        currentVersion := s.version })

/-- Modelled from the spec: the actor's handler for the `Introspection`
request — a read-only graph snapshot paired with the key-name map. -/
def EngineState.processIntrospection (s : EngineState) (keyMap : List Nat) :
    EngineState × GraphIntrospectable :=
  (s, { nodes := s.graph, keyMap := keyMap })

/-- The error kinds surfaced by the engine. -/
inductive DiceError : Type where
  | engineShuttingDown : DiceError
deriving DecidableEq

/-- Apply a staged batch of global-slot overwrites in order. -/
def applyChanges (d : DiceData) (changes : List (Nat × Nat)) : DiceData :=
  changes.foldl (fun acc c => acc.set c.1 c.2) d

/-- Modelled from the spec: the actor's handler for the
allocate-version-and-commit request.  If the actor is shutting down the
request fails with `EngineShuttingDown` and the state is untouched;
otherwise the version counter is bumped and every staged change is
merged into the global data, atomically from the graph's perspective
(the actor processes one request at a time). -/
def EngineState.processCommit (s : EngineState) (changes : List (Nat × Nat)) :
    EngineState × Except DiceError Nat :=
  if s.shutdown then (s, .error .engineShuttingDown)
  else ({ s with
            version := s.version + 1
            globalData := applyChanges s.globalData changes },
        .ok (s.version + 1))

/-- Run a sequence of commit requests against the actor, collecting the
successfully allocated version numbers in commit order. -/
def runCommits (s : EngineState) : List (List (Nat × Nat)) → List Nat
  | [] => []
  | ch :: rest =>
    match s.processCommit ch with
    | (s2, .ok v) => v :: runCommits s2 rest
    | (s2, .error _) => runCommits s2 rest

/-- The legal transitions of the task state machine. -/
inductive TaskTransition : TaskState → TaskState → Prop where
  | start : TaskTransition .scheduled .running
  | complete : TaskTransition .running .completed
  | fail : TaskTransition .running .failed
  | cancel : TaskTransition .running .cancelled

/-- Modelled from the spec: the task-registry transitions serialized by
the actor.  A lookup spawns a fresh task for (k, v) only when every
existing task for that pair is terminated; a driven task advances along
the state machine. -/
inductive TaskStep : List PendingTask → List PendingTask → Prop where
  | spawn (s : List PendingTask) (k v : Nat)
      (h : ∀ t ∈ s, t.key = k → t.version = v → t.state.isTerminated = true) :
      TaskStep s (⟨k, v, .scheduled⟩ :: s)
  | advance (l r : List PendingTask) (t : PendingTask) (st : TaskState)
      (h : TaskTransition t.state st) :
      TaskStep (l ++ t :: r) (l ++ ⟨t.key, t.version, st⟩ :: r)

/-- Task registries reachable from the empty registry. -/
def ReachableTasks (s : List PendingTask) : Prop :=
  Relation.ReflTransGen TaskStep [] s

/-- Number of non-terminated tasks for a (key, version) pair. -/
def countActive (s : List PendingTask) (k v : Nat) : Nat :=
  (s.filter (fun t =>
    decide (t.key = k) && decide (t.version = v) && !t.state.isTerminated)).length

/-- Number of tasks in the `Running` state for a (key, version) pair. -/
def countRunning (s : List PendingTask) (k v : Nat) : Nat :=
  (s.filter (fun t =>
    decide (t.key = k) && decide (t.version = v)
      && decide (t.state = TaskState.running))).length

/-- Find the task a lookup of (k, v) would await: the first
non-terminated task for that pair. -/
def findActiveTask (s : List PendingTask) (k v : Nat) : Option PendingTask :=
  s.find? (fun t =>
    decide (t.key = k) && decide (t.version = v) && !t.state.isTerminated)

/-- Modelled from the spec: a lookup of (k, v) that misses the cache —
if a task for the pair is already outstanding the caller awaits it,
otherwise a fresh task is scheduled. -/
def lookupTask (s : List PendingTask) (k v : Nat) :
    List PendingTask × PendingTask :=
  match findActiveTask s k v with
  | some t => (s, t)
  | none => (⟨k, v, .scheduled⟩ :: s, ⟨k, v, .scheduled⟩)

end Dice

namespace Starlark

theorem Ordering.then_eq_eq {o p : Ordering} :
    o.then p = .eq ↔ o = .eq ∧ p = .eq := by
  cases o <;> simp [Ordering.then]

theorem Ordering.then_eq_lt {o p : Ordering} :
    o.then p = .lt ↔ o = .lt ∨ (o = .eq ∧ p = .lt) := by
  cases o <;> simp [Ordering.then]

theorem Ordering.then_swap (o p : Ordering) :
    (o.then p).swap = o.swap.then p.swap := by
  cases o <;> simp [Ordering.then, Ordering.swap]

theorem lcmp_eq_iff {α : Type} [LinearOrder α] {a b : α} :
    lcmp a b = .eq ↔ a = b := by
  unfold lcmp
  split_ifs with h1 h2 <;> simp_all
  exact ne_of_lt h1

theorem lcmp_lt_iff {α : Type} [LinearOrder α] {a b : α} :
    lcmp a b = .lt ↔ a < b := by
  unfold lcmp
  split_ifs with h1 h2 <;> simp_all

theorem lcmp_gt_iff {α : Type} [LinearOrder α] {a b : α} :
    lcmp a b = .gt ↔ b < a := by
  unfold lcmp
  split_ifs with h1 h2 <;> simp_all
  · exact le_of_lt h1
  · exact lt_of_le_of_ne h1 (Ne.symm h2)

theorem lcmp_swap {α : Type} [LinearOrder α] (a b : α) :
    (lcmp a b).swap = lcmp b a := by
  rcases lt_trichotomy a b with h | h | h
  · rw [lcmp_lt_iff.mpr h, show lcmp b a = .gt from lcmp_gt_iff.mpr h]
    rfl
  · rw [lcmp_eq_iff.mpr h, lcmp_eq_iff.mpr h.symm]
    rfl
  · rw [show lcmp a b = .gt from lcmp_gt_iff.mpr h, lcmp_lt_iff.mpr h]
    rfl

theorem Ty.cmp_decompose (a b : Ty) :
    Ty.cmp a b = (lcmp a.rank b.rank).then (Ty.cmpSame a b) := by
  cases a <;> cases b <;>
    simp [Ty.cmp, Ty.cmpSame, Ty.rank, lcmp, Ordering.then]

mutual

theorem Ty.cmp_eq_iff : ∀ (a b : Ty), (Ty.cmp a b = Ordering.eq ↔ a = b)
  | a, b => by
    rw [Ty.cmp_decompose]
    cases a <;> cases b <;>
      simp only [Ty.rank, Ty.cmpSame, Ordering.then_eq_eq, lcmp_eq_iff] <;>
      first
        | (simp; done)
        | (rename_i k1 v1 k2 v2;
           simp [Ty.cmp_eq_iff k1 k2, Ty.cmp_eq_iff v1 v2])
        | (rename_i xs ys; simp [Ty.cmpList_eq_iff xs ys])
        | (rename_i x y; simp [Ty.cmp_eq_iff x y])
termination_by a b => sizeOf a

theorem Ty.cmpList_eq_iff : ∀ (xs ys : List Ty), (Ty.cmpList xs ys = Ordering.eq ↔ xs = ys)
  | [], [] => by simp [Ty.cmpList]
  | [], _ :: _ => by simp [Ty.cmpList]
  | _ :: _, [] => by simp [Ty.cmpList]
  | x :: xs, y :: ys => by
    simp [Ty.cmpList, Ordering.then_eq_eq, Ty.cmp_eq_iff x y,
      Ty.cmpList_eq_iff xs ys]
termination_by xs ys => sizeOf xs

end

mutual

theorem Ty.cmp_swap : ∀ (a b : Ty), (Ty.cmp a b).swap = Ty.cmp b a
  | a, b => by
    rw [Ty.cmp_decompose a b, Ty.cmp_decompose b a, Ordering.then_swap, lcmp_swap]
    congr 1
    cases a <;> cases b <;>
      simp only [Ty.cmpSame] <;>
      first
        | rfl
        | (rename_i k1 v1 k2 v2;
           rw [Ordering.then_swap, Ty.cmp_swap k1 k2, Ty.cmp_swap v1 v2])
        | (rename_i xs ys; exact Ty.cmpList_swap xs ys)
        | (rename_i x y; exact Ty.cmp_swap x y)
        | (rename_i u v; exact lcmp_swap u v)
termination_by a _ => (sizeOf a, 1)

theorem Ty.cmpList_swap : ∀ (xs ys : List Ty), (Ty.cmpList xs ys).swap = Ty.cmpList ys xs
  | [], [] => rfl
  | [], _ :: _ => rfl
  | _ :: _, [] => rfl
  | x :: xs, y :: ys => by
    simp only [Ty.cmpList]
    rw [Ordering.then_swap, Ty.cmp_swap x y, Ty.cmpList_swap xs ys]
termination_by xs _ => (sizeOf xs, 0)

end

theorem Ty.rank_never {b : Ty} (h : b.rank = 0) : b = .never := by
  cases b <;> first | rfl | simp [Ty.rank] at h

theorem Ty.rank_any {b : Ty} (h : b.rank = 1) : b = .any := by
  cases b <;> first | rfl | simp [Ty.rank] at h

theorem Ty.rank_union {b : Ty} (h : b.rank = 2) : ∃ xs, b = .union xs := by
  cases b <;> first | exact ⟨_, rfl⟩ | simp [Ty.rank] at h

theorem Ty.rank_name {b : Ty} (h : b.rank = 3) : ∃ s, b = .name s := by
  cases b <;> first | exact ⟨_, rfl⟩ | simp [Ty.rank] at h

theorem Ty.rank_iter {b : Ty} (h : b.rank = 4) : ∃ x, b = .iter x := by
  cases b <;> first | exact ⟨_, rfl⟩ | simp [Ty.rank] at h

theorem Ty.rank_list {b : Ty} (h : b.rank = 5) : ∃ x, b = .list x := by
  cases b <;> first | exact ⟨_, rfl⟩ | simp [Ty.rank] at h

theorem Ty.rank_tuple {b : Ty} (h : b.rank = 6) : ∃ xs, b = .tuple xs := by
  cases b <;> first | exact ⟨_, rfl⟩ | simp [Ty.rank] at h

theorem Ty.rank_dict {b : Ty} (h : b.rank = 7) : ∃ k v, b = .dict k v := by
  cases b <;> first | exact ⟨_, _, rfl⟩ | simp [Ty.rank] at h

theorem Ty.rank_struct {b : Ty} (h : b.rank = 8) : ∃ n, b = .struct n := by
  cases b <;> first | exact ⟨_, rfl⟩ | simp [Ty.rank] at h

theorem Ty.rank_custom {b : Ty} (h : b.rank = 9) : ∃ n, b = .custom n := by
  cases b <;> first | exact ⟨_, rfl⟩ | simp [Ty.rank] at h

mutual

theorem Ty.cmpSame_lt_trans :
    ∀ (a b c : Ty), a.rank = b.rank → b.rank = c.rank →
      Ty.cmpSame a b = .lt → Ty.cmpSame b c = .lt → Ty.cmpSame a c = .lt
  | .never, b, c => by
    intro hab _ h1 _
    obtain rfl := Ty.rank_never hab.symm
    simp [Ty.cmpSame] at h1
  | .any, b, c => by
    intro hab _ h1 _
    obtain rfl := Ty.rank_any hab.symm
    simp [Ty.cmpSame] at h1
  | .union xs, b, c => by
    intro hab hbc h1 h2
    obtain ⟨ys, rfl⟩ := Ty.rank_union hab.symm
    obtain ⟨zs, rfl⟩ := Ty.rank_union hbc.symm
    simp only [Ty.cmpSame] at h1 h2 ⊢
    exact Ty.cmpList_lt_trans xs ys zs h1 h2
  | .name s, b, c => by
    intro hab hbc h1 h2
    obtain ⟨t, rfl⟩ := Ty.rank_name hab.symm
    obtain ⟨u, rfl⟩ := Ty.rank_name hbc.symm
    simp only [Ty.cmpSame, lcmp_lt_iff] at h1 h2 ⊢
    exact lt_trans h1 h2
  | .iter x, b, c => by
    intro hab hbc h1 h2
    obtain ⟨y, rfl⟩ := Ty.rank_iter hab.symm
    obtain ⟨z, rfl⟩ := Ty.rank_iter hbc.symm
    simp only [Ty.cmpSame] at h1 h2 ⊢
    exact Ty.cmp_lt_trans x y z h1 h2
  | .list x, b, c => by
    intro hab hbc h1 h2
    obtain ⟨y, rfl⟩ := Ty.rank_list hab.symm
    obtain ⟨z, rfl⟩ := Ty.rank_list hbc.symm
    simp only [Ty.cmpSame] at h1 h2 ⊢
    exact Ty.cmp_lt_trans x y z h1 h2
  | .tuple xs, b, c => by
    intro hab hbc h1 h2
    obtain ⟨ys, rfl⟩ := Ty.rank_tuple hab.symm
    obtain ⟨zs, rfl⟩ := Ty.rank_tuple hbc.symm
    simp only [Ty.cmpSame] at h1 h2 ⊢
    exact Ty.cmpList_lt_trans xs ys zs h1 h2
  | .dict k1 v1, b, c => by
    intro hab hbc h1 h2
    obtain ⟨k2, v2, rfl⟩ := Ty.rank_dict hab.symm
    obtain ⟨k3, v3, rfl⟩ := Ty.rank_dict hbc.symm
    simp only [Ty.cmpSame, Ordering.then_eq_lt] at h1 h2 ⊢
    rcases h1 with h1 | ⟨h1e, h1v⟩
    · rcases h2 with h2 | ⟨h2e, h2v⟩
      · exact Or.inl (Ty.cmp_lt_trans k1 k2 k3 h1 h2)
      · obtain rfl := (Ty.cmp_eq_iff k2 k3).mp h2e
        exact Or.inl h1
    · obtain rfl := (Ty.cmp_eq_iff k1 k2).mp h1e
      rcases h2 with h2 | ⟨h2e, h2v⟩
      · exact Or.inl h2
      · obtain rfl := (Ty.cmp_eq_iff k1 k3).mp h2e
        exact Or.inr ⟨(Ty.cmp_eq_iff k1 k1).mpr rfl, Ty.cmp_lt_trans v1 v2 v3 h1v h2v⟩
  | .struct n, b, c => by
    intro hab hbc h1 h2
    obtain ⟨m, rfl⟩ := Ty.rank_struct hab.symm
    obtain ⟨p, rfl⟩ := Ty.rank_struct hbc.symm
    simp only [Ty.cmpSame, lcmp_lt_iff] at h1 h2 ⊢
    exact lt_trans h1 h2
  | .custom n, b, c => by
    intro hab hbc h1 h2
    obtain ⟨m, rfl⟩ := Ty.rank_custom hab.symm
    obtain ⟨p, rfl⟩ := Ty.rank_custom hbc.symm
    simp only [Ty.cmpSame, lcmp_lt_iff] at h1 h2 ⊢
    exact lt_trans h1 h2
termination_by a _ _ => (sizeOf a, 0)

theorem Ty.cmp_lt_trans :
    ∀ (a b c : Ty), Ty.cmp a b = .lt → Ty.cmp b c = .lt → Ty.cmp a c = .lt
  | a, b, c => by
    rw [Ty.cmp_decompose a b, Ty.cmp_decompose b c, Ty.cmp_decompose a c]
    intro h1 h2
    rw [Ordering.then_eq_lt] at h1 h2 ⊢
    rcases h1 with h1 | ⟨h1e, h1s⟩
    · rcases h2 with h2 | ⟨h2e, h2s⟩
      · exact Or.inl (lcmp_lt_iff.mpr (lt_trans (lcmp_lt_iff.mp h1) (lcmp_lt_iff.mp h2)))
      · rw [lcmp_eq_iff] at h2e
        exact Or.inl (by rw [← h2e]; exact h1)
    · rw [lcmp_eq_iff] at h1e
      rcases h2 with h2 | ⟨h2e, h2s⟩
      · exact Or.inl (by rw [h1e]; exact h2)
      · rw [lcmp_eq_iff] at h2e
        refine Or.inr ⟨lcmp_eq_iff.mpr (h1e.trans h2e), ?_⟩
        exact Ty.cmpSame_lt_trans a b c h1e h2e h1s h2s
termination_by a _ _ => (sizeOf a, 1)

theorem Ty.cmpList_lt_trans :
    ∀ (xs ys zs : List Ty),
      Ty.cmpList xs ys = .lt → Ty.cmpList ys zs = .lt → Ty.cmpList xs zs = .lt
  | [], [], _ => by intro h1 _; simp [Ty.cmpList] at h1
  | [], _ :: _, [] => by intro _ h2; simp [Ty.cmpList] at h2
  | [], _ :: _, _ :: _ => by intro _ _; simp [Ty.cmpList]
  | _ :: _, [], _ => by intro h1 _; simp [Ty.cmpList] at h1
  | _ :: _, _ :: _, [] => by intro _ h2; simp [Ty.cmpList] at h2
  | x :: xs, y :: ys, z :: zs => by
    intro h1 h2
    simp only [Ty.cmpList, Ordering.then_eq_lt] at h1 h2 ⊢
    rcases h1 with h1 | ⟨h1e, h1t⟩
    · rcases h2 with h2 | ⟨h2e, h2t⟩
      · exact Or.inl (Ty.cmp_lt_trans x y z h1 h2)
      · obtain rfl := (Ty.cmp_eq_iff y z).mp h2e
        exact Or.inl h1
    · obtain rfl := (Ty.cmp_eq_iff x y).mp h1e
      rcases h2 with h2 | ⟨h2e, h2t⟩
      · exact Or.inl h2
      · obtain rfl := (Ty.cmp_eq_iff x z).mp h2e
        exact Or.inr ⟨(Ty.cmp_eq_iff x x).mpr rfl, Ty.cmpList_lt_trans xs ys zs h1t h2t⟩
termination_by xs _ _ => (sizeOf xs, 0)

end

end Starlark

namespace Starlark

theorem Ty.beq_iff {a b : Ty} : Ty.beq a b = true ↔ a = b := by
  rw [Ty.beq, ← Ty.cmp_eq_iff a b]
  cases Ty.cmp a b <;> simp <;> rfl

theorem Ty.cmp_self (a : Ty) : Ty.cmp a a = .eq := (Ty.cmp_eq_iff a a).mpr rfl

theorem Ty.le_iff {a b : Ty} : Ty.le a b ↔ Ty.ltRel a b ∨ a = b := by
  rw [← Ty.cmp_eq_iff a b]
  unfold Ty.le Ty.ltRel
  cases Ty.cmp a b <;> simp

theorem Ty.le_refl (a : Ty) : Ty.le a a := Ty.le_iff.mpr (Or.inr rfl)

theorem Ty.ltRel_ne {a b : Ty} (h : Ty.ltRel a b) : a ≠ b := by
  intro he
  subst he
  rw [Ty.ltRel, Ty.cmp_self] at h
  cases h

theorem Ty.ltRel_trans {a b c : Ty} (h1 : Ty.ltRel a b) (h2 : Ty.ltRel b c) :
    Ty.ltRel a c :=
  Ty.cmp_lt_trans a b c h1 h2

theorem Ty.lt_of_le_of_ne {a b : Ty} (h : Ty.le a b) (hne : a ≠ b) : Ty.ltRel a b := by
  rcases Ty.le_iff.mp h with h | h
  · exact h
  · exact absurd h hne

theorem Ty.le_antisymm {a b : Ty} (h1 : Ty.le a b) (h2 : Ty.le b a) : a = b := by
  rcases Ty.le_iff.mp h1 with h1 | h1
  · rcases Ty.le_iff.mp h2 with h2 | h2
    · have := Ty.ltRel_trans h1 h2
      rw [Ty.ltRel, Ty.cmp_self] at this
      cases this
    · exact h2.symm
  · exact h1

theorem Ty.leIsTotal : IsTotal Ty Ty.le := by
  constructor
  intro a b
  unfold Ty.le
  cases h : Ty.cmp a b
  · exact Or.inl (by simp [h])
  · exact Or.inl (by simp [h])
  · refine Or.inr ?_
    have := Ty.cmp_swap a b
    rw [h] at this
    simp [Ordering.swap] at this
    simp [← this]

theorem Ty.leIsTrans : IsTrans Ty Ty.le := by
  constructor
  intro a b c h1 h2
  rcases Ty.le_iff.mp h1 with h1 | rfl
  · rcases Ty.le_iff.mp h2 with h2 | rfl
    · exact Ty.le_iff.mpr (Or.inl (Ty.ltRel_trans h1 h2))
    · exact Ty.le_iff.mpr (Or.inl h1)
  · exact h2

theorem Ty.leIsAntisymm : IsAntisymm Ty Ty.le :=
  ⟨fun _ _ => Ty.le_antisymm⟩

theorem Ty.ltRel_rank_le {a b : Ty} (h : Ty.ltRel a b) : a.rank ≤ b.rank := by
  rw [Ty.ltRel, Ty.cmp_decompose, Ordering.then_eq_lt] at h
  rcases h with h | ⟨h, _⟩
  · exact le_of_lt (lcmp_lt_iff.mp h)
  · exact le_of_eq (lcmp_eq_iff.mp h)

theorem Ty.rank_lt_ltRel {a b : Ty} (h : a.rank < b.rank) : Ty.ltRel a b := by
  rw [Ty.ltRel, Ty.cmp_decompose, Ordering.then_eq_lt]
  exact Or.inl (lcmp_lt_iff.mpr h)

end Starlark

namespace Starlark

theorem mem_dedupAdj : ∀ {l : List Ty} {z : Ty}, z ∈ dedupAdj l ↔ z ∈ l
  | [], z => by simp [dedupAdj]
  | [x], z => by simp [dedupAdj]
  | x :: y :: rest, z => by
    rw [dedupAdj]
    by_cases h : Ty.beq x y
    · rw [if_pos h]
      obtain rfl : x = y := Ty.beq_iff.mp h
      rw [mem_dedupAdj]
      simp [List.mem_cons]
    · rw [if_neg h]
      simp [List.mem_cons, @mem_dedupAdj (y :: rest)]

theorem dedupAdj_pairwise :
    ∀ {l : List Ty}, l.Pairwise Ty.le → (dedupAdj l).Pairwise Ty.ltRel
  | [], _ => by simp [dedupAdj]
  | [x], _ => by simp [dedupAdj]
  | x :: y :: rest, hp => by
    rw [dedupAdj]
    obtain ⟨hx, hp2⟩ := List.pairwise_cons.mp hp
    by_cases h : Ty.beq x y
    · rw [if_pos h]
      exact dedupAdj_pairwise hp2
    · rw [if_neg h]
      refine List.pairwise_cons.mpr ⟨?_, dedupAdj_pairwise hp2⟩
      intro z hz
      have hzmem : z ∈ y :: rest := mem_dedupAdj.mp hz
      have hle : Ty.le x z := hx z hzmem
      have hxy : x ≠ y := fun he => h (Ty.beq_iff.mpr he)
      have hyz : Ty.le y z := by
        rcases List.mem_cons.mp hzmem with rfl | hzr
        · exact Ty.le_refl z
        · exact (List.pairwise_cons.mp hp2).1 z hzr
      have hxz : x ≠ z := by
        rintro rfl
        exact hxy (Ty.le_antisymm (hx y (List.mem_cons_self y rest)) hyz)
      exact Ty.lt_of_le_of_ne hle hxz

theorem Ty.isList_iff {t : Ty} : t.isList = true ↔ ∃ x, t = .list x := by
  cases t <;> simp [Ty.isList]

theorem Ty.isDict_iff {t : Ty} : t.isDict = true ↔ ∃ k v, t = .dict k v := by
  cases t <;> simp [Ty.isDict]

theorem Ty.isStruct_iff {t : Ty} : t.isStruct = true ↔ ∃ n, t = .struct n := by
  cases t <;> simp [Ty.isStruct]

theorem Ty.isList_rank {t : Ty} (h : t.isList = true) : t.rank = 5 := by
  obtain ⟨x, rfl⟩ := Ty.isList_iff.mp h
  rfl

theorem Ty.isDict_rank {t : Ty} (h : t.isDict = true) : t.rank = 7 := by
  obtain ⟨k, v, rfl⟩ := Ty.isDict_iff.mp h
  rfl

theorem Ty.isStruct_rank {t : Ty} (h : t.isStruct = true) : t.rank = 8 := by
  obtain ⟨n, rfl⟩ := Ty.isStruct_iff.mp h
  rfl

theorem Ty.isList_not_special {t : Ty} (h : t.isList = true) :
    t ≠ .never ∧ t.isUnion = false := by
  obtain ⟨x, rfl⟩ := Ty.isList_iff.mp h
  exact ⟨fun hc => Ty.noConfusion hc, rfl⟩

theorem Ty.isDict_not_special {t : Ty} (h : t.isDict = true) :
    t ≠ .never ∧ t.isUnion = false := by
  obtain ⟨k, v, rfl⟩ := Ty.isDict_iff.mp h
  exact ⟨fun hc => Ty.noConfusion hc, rfl⟩

theorem Ty.mergeFn_inl {su : StructUnion} {u2 : Ty → Ty → Ty} {a b m : Ty}
    (h : Ty.mergeFn su u2 a b = .inl m) :
    (a.isList = true ∧ b.isList = true ∧ m.isList = true)
    ∨ (a.isDict = true ∧ b.isDict = true ∧ m.isDict = true)
    ∨ (a.isStruct = true ∧ b.isStruct = true ∧ m.isStruct = true) := by
  cases a <;> cases b <;>
    first
      | (exfalso; simp [Ty.mergeFn] at h; done)
      | skip
  · rename_i x y
    simp only [Ty.mergeFn, Sum.inl.injEq] at h
    refine Or.inl ⟨rfl, rfl, ?_⟩
    rw [← h]
    rfl
  · rename_i k1 v1 k2 v2
    simp only [Ty.mergeFn, Sum.inl.injEq] at h
    refine Or.inr (Or.inl ⟨rfl, rfl, ?_⟩)
    rw [← h]
    rfl
  · rename_i x y
    simp only [Ty.mergeFn] at h
    rcases hsu : su x y with u | q
    · rw [hsu] at h
      simp only [Sum.inl.injEq] at h
      refine Or.inr (Or.inr ⟨rfl, rfl, ?_⟩)
      rw [← h]
      rfl
    · rw [hsu] at h
      cases q
      simp at h

theorem Ty.mergeFn_inr_of_ne {su : StructUnion} {u2 : Ty → Ty → Ty} {a b : Ty}
    {p : Ty × Ty}
    (hsu : ∀ x y : Nat, x ≠ y → su x y = Sum.inr (x, y))
    (hne : a ≠ b) (h : Ty.mergeFn su u2 a b = .inr p) : p = (a, b) := by
  cases a <;> cases b <;> simp only [Ty.mergeFn] at h <;>
    first
      | (simp only [Sum.inr.injEq] at h; exact h.symm)
      | (exfalso; simp at h; done)
      | (rename_i x y;
         have hxy : x ≠ y := fun he => hne (by rw [he]);
         rw [hsu x y hxy] at h;
         simp only [Sum.inr.injEq] at h;
         exact h.symm)

theorem Ty.mergeFn_list_list {su : StructUnion} {u2 : Ty → Ty → Ty} {x y : Ty} :
    Ty.mergeFn su u2 (.list x) (.list y) = .inl (.list (u2 x y)) := rfl

theorem Ty.mergeFn_dict_dict {su : StructUnion} {u2 : Ty → Ty → Ty}
    {k1 v1 k2 v2 : Ty} :
    Ty.mergeFn su u2 (.dict k1 v1) (.dict k2 v2)
      = .inl (.dict (u2 k1 k2) (u2 v1 v2)) := rfl

end Starlark

namespace Starlark

theorem Ty.mergeFn_inl_of_lists (su : StructUnion) (u2 : Ty → Ty → Ty) {a b : Ty}
    (ha : a.isList = true) (hb : b.isList = true) :
    ∃ m, Ty.mergeFn su u2 a b = Sum.inl m := by
  obtain ⟨x, rfl⟩ := Ty.isList_iff.mp ha
  obtain ⟨y, rfl⟩ := Ty.isList_iff.mp hb
  exact ⟨_, Ty.mergeFn_list_list⟩

theorem Ty.mergeFn_inl_of_dicts (su : StructUnion) (u2 : Ty → Ty → Ty) {a b : Ty}
    (ha : a.isDict = true) (hb : b.isDict = true) :
    ∃ m, Ty.mergeFn su u2 a b = Sum.inl m := by
  obtain ⟨k1, v1, rfl⟩ := Ty.isDict_iff.mp ha
  obtain ⟨k2, v2, rfl⟩ := Ty.isDict_iff.mp hb
  exact ⟨_, Ty.mergeFn_dict_dict⟩

/-- Main invariant of `merge_adjacent`, relative to an accumulator `l`:
given a strictly sorted tail whose ranks dominate the accumulator's, the
output is strictly sorted, its ranks dominate the accumulator's, and
every output element is either an input or a merged list or dict. -/
theorem mergeGo_main (su : StructUnion) (u2 : Ty → Ty → Ty)
    (hsu : ∀ x y : Nat, x ≠ y → su x y = Sum.inr (x, y)) :
    ∀ (xs : List Ty) (l : Ty),
      (∀ y ∈ xs, l.rank ≤ y.rank) →
      (∀ y ∈ xs, l.rank = y.rank →
        (l.isList = true ∧ y.isList = true) ∨ (l.isDict = true ∧ y.isDict = true)
          ∨ Ty.ltRel l y) →
      xs.Pairwise Ty.ltRel →
      (mergeAdjacentGo (Ty.mergeFn su u2) l xs).Pairwise Ty.ltRel
      ∧ (∀ z ∈ mergeAdjacentGo (Ty.mergeFn su u2) l xs, l.rank ≤ z.rank)
      ∧ (∀ z ∈ mergeAdjacentGo (Ty.mergeFn su u2) l xs,
          z ∈ l :: xs ∨ z.isList = true ∨ z.isDict = true)
  | [], l => by
    intro _ _ _
    refine ⟨?_, ?_, ?_⟩ <;> simp [mergeAdjacentGo]
  | x :: rest, l => by
    intro h1 h2 hp
    have hlx_rank : l.rank ≤ x.rank := h1 x (List.mem_cons_self x rest)
    have hrest1 : ∀ y ∈ rest, Ty.ltRel x y := (List.pairwise_cons.mp hp).1
    have hprest : rest.Pairwise Ty.ltRel := (List.pairwise_cons.mp hp).2
    cases hf : Ty.mergeFn su u2 l x with
    | inl m =>
      have hgo : mergeAdjacentGo (Ty.mergeFn su u2) l (x :: rest)
          = mergeAdjacentGo (Ty.mergeFn su u2) m rest := by
        rw [mergeAdjacentGo, hf]
      rcases Ty.mergeFn_inl hf with ⟨hl, hx, hm⟩ | ⟨hl, hx, hm⟩ | ⟨hl, hx, hm⟩
      · -- adjacent lists merged
        have hrl : l.rank = 5 := Ty.isList_rank hl
        have hrm : m.rank = 5 := Ty.isList_rank hm
        have ih := mergeGo_main su u2 hsu rest m
          (fun y hy => by
            have := h1 y (List.mem_cons_of_mem x hy)
            omega)
          (fun y hy hr => by
            have h5 : y.rank = 5 := by omega
            obtain ⟨w, rfl⟩ := Ty.rank_list h5
            exact Or.inl ⟨hm, rfl⟩)
          hprest
        rw [hgo]
        refine ⟨ih.1, ?_, ?_⟩
        · intro z hz
          have := ih.2.1 z hz
          omega
        · intro z hz
          rcases ih.2.2 z hz with hzm | hL | hD
          · rcases List.mem_cons.mp hzm with rfl | hz2
            · exact Or.inr (Or.inl hm)
            · exact Or.inl (List.mem_cons_of_mem l (List.mem_cons_of_mem x hz2))
          · exact Or.inr (Or.inl hL)
          · exact Or.inr (Or.inr hD)
      · -- adjacent dicts merged
        have hrl : l.rank = 7 := Ty.isDict_rank hl
        have hrm : m.rank = 7 := Ty.isDict_rank hm
        have ih := mergeGo_main su u2 hsu rest m
          (fun y hy => by
            have := h1 y (List.mem_cons_of_mem x hy)
            omega)
          (fun y hy hr => by
            have h7 : y.rank = 7 := by omega
            obtain ⟨k, v, rfl⟩ := Ty.rank_dict h7
            exact Or.inr (Or.inl ⟨hm, rfl⟩))
          hprest
        rw [hgo]
        refine ⟨ih.1, ?_, ?_⟩
        · intro z hz
          have := ih.2.1 z hz
          omega
        · intro z hz
          rcases ih.2.2 z hz with hzm | hL | hD
          · rcases List.mem_cons.mp hzm with rfl | hz2
            · exact Or.inr (Or.inr hm)
            · exact Or.inl (List.mem_cons_of_mem l (List.mem_cons_of_mem x hz2))
          · exact Or.inr (Or.inl hL)
          · exact Or.inr (Or.inr hD)
      · -- adjacent structs never merge under `hsu`
        exfalso
        obtain ⟨p, rfl⟩ := Ty.isStruct_iff.mp hl
        obtain ⟨q, rfl⟩ := Ty.isStruct_iff.mp hx
        have hne : Ty.struct p ≠ Ty.struct q := by
          rcases h2 (Ty.struct q) (List.mem_cons_self _ rest) rfl with
            ⟨hL, _⟩ | ⟨hD, _⟩ | hlt
          · simp [Ty.isList] at hL
          · simp [Ty.isDict] at hD
          · exact Ty.ltRel_ne hlt
        have hpq : p ≠ q := fun he => hne (by rw [he])
        rw [show Ty.mergeFn su u2 (.struct p) (.struct q)
            = Sum.inr (.struct p, .struct q) from by
          simp [Ty.mergeFn, hsu p q hpq]] at hf
        exact Sum.noConfusion hf
    | inr pr =>
      obtain ⟨l2, x2⟩ := pr
      -- the accumulator is strictly below the head
      have hlx_lt : Ty.ltRel l x := by
        rcases lt_or_eq_of_le hlx_rank with hlt | heq
        · exact Ty.rank_lt_ltRel hlt
        · rcases h2 x (List.mem_cons_self x rest) heq with
            ⟨hL1, hL2⟩ | ⟨hD1, hD2⟩ | hlt
          · obtain ⟨m0, hm0⟩ := Ty.mergeFn_inl_of_lists su u2 hL1 hL2
            rw [hm0] at hf
            exact Sum.noConfusion hf
          · obtain ⟨m0, hm0⟩ := Ty.mergeFn_inl_of_dicts su u2 hD1 hD2
            rw [hm0] at hf
            exact Sum.noConfusion hf
          · exact hlt
      have hpair := Ty.mergeFn_inr_of_ne hsu (Ty.ltRel_ne hlx_lt) hf
      rw [hpair] at hf
      have hgo : mergeAdjacentGo (Ty.mergeFn su u2) l (x :: rest)
          = l :: mergeAdjacentGo (Ty.mergeFn su u2) x rest := by
        rw [mergeAdjacentGo, hf]
      have ih := mergeGo_main su u2 hsu rest x
        (fun y hy => Ty.ltRel_rank_le (hrest1 y hy))
        (fun y hy _ => Or.inr (Or.inr (hrest1 y hy)))
        hprest
      rw [hgo]
      refine ⟨List.pairwise_cons.mpr ⟨?_, ih.1⟩, ?_, ?_⟩
      · intro z hz
        have hrz := ih.2.1 z hz
        have hmz := ih.2.2 z hz
        rcases lt_or_eq_of_le hlx_rank with hlt | heq
        · exact Ty.rank_lt_ltRel (lt_of_lt_of_le hlt hrz)
        · rcases lt_or_eq_of_le hrz with hlt2 | heq2
          · exact Ty.rank_lt_ltRel (by omega)
          · rcases hmz with hz_mem | hzL | hzD
            · rcases List.mem_cons.mp hz_mem with rfl | hz_rest
              · exact hlx_lt
              · exact Ty.ltRel_trans hlx_lt (hrest1 z hz_rest)
            · exfalso
              have h5l : l.rank = 5 := by
                have := Ty.isList_rank hzL
                omega
              have h5x : x.rank = 5 := by
                have := Ty.isList_rank hzL
                omega
              obtain ⟨w1, hw1⟩ := Ty.rank_list h5l
              obtain ⟨w2, hw2⟩ := Ty.rank_list h5x
              subst hw1
              subst hw2
              rw [Ty.mergeFn_list_list] at hf
              exact Sum.noConfusion hf
            · exfalso
              have h7l : l.rank = 7 := by
                have := Ty.isDict_rank hzD
                omega
              have h7x : x.rank = 7 := by
                have := Ty.isDict_rank hzD
                omega
              obtain ⟨k1, v1, hw1⟩ := Ty.rank_dict h7l
              obtain ⟨k2, v2, hw2⟩ := Ty.rank_dict h7x
              subst hw1
              subst hw2
              rw [Ty.mergeFn_dict_dict] at hf
              exact Sum.noConfusion hf
      · intro z hz
        rcases List.mem_cons.mp hz with rfl | hz2
        · exact le_refl _
        · exact le_trans hlx_rank (ih.2.1 z hz2)
      · intro z hz
        rcases List.mem_cons.mp hz with rfl | hz2
        · exact Or.inl (List.mem_cons_self z _)
        · rcases ih.2.2 z hz2 with hzm | hL | hD
          · exact Or.inl (List.mem_cons_of_mem l hzm)
          · exact Or.inr (Or.inl hL)
          · exact Or.inr (Or.inr hD)

/-- `merge_adjacent` on a strictly sorted list yields a strictly sorted
list each of whose elements is an input element or a merged list or
dict. -/
theorem mergeAdjacent_main (su : StructUnion) (u2 : Ty → Ty → Ty)
    (hsu : ∀ x y : Nat, x ≠ y → su x y = Sum.inr (x, y))
    (M : List Ty) (hM : M.Pairwise Ty.ltRel) :
    (mergeAdjacent (Ty.mergeFn su u2) M).Pairwise Ty.ltRel
    ∧ (∀ z ∈ mergeAdjacent (Ty.mergeFn su u2) M,
        z ∈ M ∨ z.isList = true ∨ z.isDict = true) := by
  cases M with
  | nil => exact ⟨by simp [mergeAdjacent], by simp [mergeAdjacent]⟩
  | cons x rest =>
    have hx1 : ∀ y ∈ rest, Ty.ltRel x y := (List.pairwise_cons.mp hM).1
    have ih := mergeGo_main su u2 hsu rest x
      (fun y hy => Ty.ltRel_rank_le (hx1 y hy))
      (fun y hy _ => Or.inr (Or.inr (hx1 y hy)))
      (List.pairwise_cons.mp hM).2
    exact ⟨ih.1, ih.2.2⟩

end Starlark

namespace Starlark

theorem Ty.intoIterUnion_no_union {x : Ty}
    (hx : ∀ us, x = Ty.union us → ∀ u ∈ us, u.isUnion = false) :
    ∀ z ∈ x.intoIterUnion, z.isUnion = false := by
  intro z hz
  cases x with
  | union ws => exact hx ws rfl z hz
  | never => simp [Ty.intoIterUnion] at hz
  | _ =>
    simp only [Ty.intoIterUnion, List.mem_singleton] at hz
    subst hz
    rfl

theorem flatMapUnion_no_union :
    ∀ {xs : List Ty},
      (∀ t ∈ xs, ∀ us, t = Ty.union us → ∀ u ∈ us, u.isUnion = false) →
      ∀ z ∈ flatMapUnion xs, z.isUnion = false
  | [], _ => by simp [flatMapUnion]
  | x :: xs, hwf => by
    intro z hz
    rw [flatMapUnion] at hz
    rcases List.mem_append.mp hz with hz1 | hz2
    · exact Ty.intoIterUnion_no_union (hwf x (List.mem_cons_self x xs)) z hz1
    · exact flatMapUnion_no_union
        (fun t ht => hwf t (List.mem_cons_of_mem x ht)) z hz2

theorem flatMapUnion_nil :
    ∀ {xs : List Ty}, (∀ t ∈ xs, t = Ty.never) → flatMapUnion xs = []
  | [], _ => rfl
  | x :: xs, h => by
    obtain rfl : x = Ty.never := h x (List.mem_cons_self x xs)
    rw [flatMapUnion, flatMapUnion_nil (fun t ht => h t (List.mem_cons_of_mem _ ht))]
    rfl

/-- The sorted, deduplicated, `Never`-free list that `Ty::unions` builds
before merging. -/
def unionsPipeline (xs : List Ty) : List Ty :=
  (dedupAdj (List.insertionSort Ty.le (flatMapUnion xs))).filter
    (fun t => !(Ty.beq t Ty.never))

/-- `Ty.unions` unfolded one step, through the pipeline. -/
theorem unions_eq (su : StructUnion) (xs : List Ty) :
    Ty.unions su xs =
      (if (unionsPipeline xs).any (fun t => Ty.beq t Ty.any) then Ty.any
       else
         match mergeAdjacent
             (Ty.mergeFn su (fun a b => Ty.unionsFuel su (Ty.tsizeList xs) [a, b]))
             (unionsPipeline xs) with
         | [] => Ty.never
         | [t] => t
         | ys => Ty.union ys) := by
  simp only [Ty.unions, Ty.unionsFuel, unionsPipeline]

theorem unionsPipeline_pairwise (xs : List Ty) :
    (unionsPipeline xs).Pairwise Ty.ltRel := by
  haveI := Ty.leIsTotal
  haveI := Ty.leIsTrans
  exact List.Pairwise.filter _
    (dedupAdj_pairwise (List.sorted_insertionSort Ty.le (flatMapUnion xs)))

theorem unionsPipeline_subset {xs : List Ty} {z : Ty} (h : z ∈ unionsPipeline xs) :
    z ∈ flatMapUnion xs := by
  have h2 := List.mem_of_mem_filter h
  have h3 := mem_dedupAdj.mp h2
  exact (List.perm_insertionSort Ty.le (flatMapUnion xs)).subset h3

theorem unionsPipeline_ne_never {xs : List Ty} {z : Ty} (h : z ∈ unionsPipeline xs) :
    z ≠ Ty.never := by
  have hp := List.of_mem_filter h
  intro he
  subst he
  rw [Ty.beq_iff.mpr rfl] at hp
  cases hp

theorem unionsPipeline_any_mem {xs : List Ty} (h : Ty.any ∈ flatMapUnion xs) :
    Ty.any ∈ unionsPipeline xs := by
  refine List.mem_filter.mpr ⟨?_, by decide⟩
  refine mem_dedupAdj.mpr ?_
  exact ((List.perm_insertionSort Ty.le (flatMapUnion xs)).mem_iff).mpr h

end Starlark

namespace Starlark

/-- Claim C8: if `Ty::unions(xs)` returns a `Ty::Union` then the union's
alternative list has at least two elements, no duplicates, no
`Ty::Never` and no directly nested `Ty::Union`; `Ty::unions` of an empty
or all-`Never` list is `Ty::Never`; and `Ty::unions` of a list whose
flattened alternatives contain `Ty::Any` is `Ty::Any`.  The struct
merging function (not part of the sources) is assumed to merge only
equal payloads, and the input types are assumed to satisfy the
`TyUnion` representation invariant (no directly nested unions). -/
theorem claim_C8 (su : StructUnion)
    (hsu : ∀ x y : Nat, x ≠ y → su x y = Sum.inr (x, y))
    (xs : List Ty)
    (hwf : ∀ t ∈ xs, ∀ us, t = Ty.union us → ∀ u ∈ us, u.isUnion = false) :
    (∀ l, Ty.unions su xs = Ty.union l →
      2 ≤ l.length ∧ l.Nodup ∧ Ty.never ∉ l ∧ ∀ t ∈ l, t.isUnion = false)
    ∧ ((xs = [] ∨ ∀ t ∈ xs, t = Ty.never) → Ty.unions su xs = Ty.never)
    ∧ (Ty.any ∈ flatMapUnion xs → Ty.unions su xs = Ty.any) := by
  have hmain := mergeAdjacent_main su
    (fun a b => Ty.unionsFuel su (Ty.tsizeList xs) [a, b]) hsu
    (unionsPipeline xs) (unionsPipeline_pairwise xs)
  have helem : ∀ z ∈ mergeAdjacent
      (Ty.mergeFn su (fun a b => Ty.unionsFuel su (Ty.tsizeList xs) [a, b]))
      (unionsPipeline xs), z ≠ Ty.never ∧ z.isUnion = false := by
    intro z hz
    rcases hmain.2 z hz with hzM | hL | hD
    · exact ⟨unionsPipeline_ne_never hzM,
        flatMapUnion_no_union hwf z (unionsPipeline_subset hzM)⟩
    · exact Ty.isList_not_special hL
    · exact Ty.isDict_not_special hD
  refine ⟨?_, ?_, ?_⟩
  · intro l hl
    rw [unions_eq] at hl
    by_cases hany : ((unionsPipeline xs).any (fun t => Ty.beq t Ty.any)) = true
    · rw [if_pos hany] at hl
      exact Ty.noConfusion hl
    · rw [if_neg hany] at hl
      cases hO : mergeAdjacent
          (Ty.mergeFn su (fun a b => Ty.unionsFuel su (Ty.tsizeList xs) [a, b]))
          (unionsPipeline xs) with
      | nil =>
        rw [hO] at hl
        have hl2 : Ty.never = Ty.union l := hl
        exact Ty.noConfusion hl2
      | cons t1 O2 =>
        cases O2 with
        | nil =>
          rw [hO] at hl
          have hl2 : t1 = Ty.union l := hl
          exfalso
          have hnu := (helem t1 (by rw [hO]; exact List.mem_cons_self _ _)).2
          rw [hl2] at hnu
          simp [Ty.isUnion] at hnu
        | cons t2 O3 =>
          rw [hO] at hl
          have hl2 : Ty.union (t1 :: t2 :: O3) = Ty.union l := hl
          have hleq : l = t1 :: t2 :: O3 := by
            injection hl2 with h
            exact h.symm
          subst hleq
          have hout : ∀ z ∈ t1 :: t2 :: O3, z ≠ Ty.never ∧ z.isUnion = false := by
            intro z hz
            exact helem z (by rw [hO]; exact hz)
          have hpw : (t1 :: t2 :: O3).Pairwise Ty.ltRel := by
            rw [← hO]
            exact hmain.1
          refine ⟨by simp, hpw.imp (fun h => Ty.ltRel_ne h), ?_, ?_⟩
          · intro hnev
            exact (hout Ty.never hnev).1 rfl
          · intro t ht
            exact (hout t ht).2
  · intro hx
    have hflat : flatMapUnion xs = [] := by
      rcases hx with rfl | hall
      · rfl
      · exact flatMapUnion_nil hall
    have hpipe : unionsPipeline xs = [] := by
      unfold unionsPipeline
      rw [hflat]
      rfl
    rw [unions_eq, hpipe]
    rfl
  · intro hx
    have hany : ((unionsPipeline xs).any (fun t => Ty.beq t Ty.any)) = true :=
      List.any_eq_true.mpr ⟨Ty.any, unionsPipeline_any_mem hx, Ty.beq_iff.mpr rfl⟩
    rw [unions_eq, if_pos hany]

end Starlark

namespace Starlark

/-- Sorting with the derived order is canonical: permuted inputs sort to
the same list. -/
theorem insertionSort_eq_of_perm {l1 l2 : List Ty} (h : l1.Perm l2) :
    List.insertionSort Ty.le l1 = List.insertionSort Ty.le l2 := by
  haveI := Ty.leIsTotal
  haveI := Ty.leIsTrans
  haveI := Ty.leIsAntisymm
  refine List.eq_of_perm_of_sorted ?_ (List.sorted_insertionSort Ty.le l1)
    (List.sorted_insertionSort Ty.le l2)
  exact ((List.perm_insertionSort Ty.le l1).trans h).trans
    (List.perm_insertionSort Ty.le l2).symm

/-- Claim C9: `Ty::union2` is commutative — the normalisation inside
`Ty::unions` sorts and deduplicates the flattened alternatives, making
the result independent of argument order. -/
theorem claim_C9 (su : StructUnion) (a b : Ty) :
    Ty.union2 su a b = Ty.union2 su b a := by
  unfold Ty.union2 Ty.unions
  have hfuel : Ty.tsizeList [b, a] = Ty.tsizeList [a, b] := by
    simp [Ty.tsizeList]
    omega
  rw [hfuel]
  have hsort : List.insertionSort Ty.le (flatMapUnion [a, b])
      = List.insertionSort Ty.le (flatMapUnion [b, a]) := by
    apply insertionSort_eq_of_perm
    have h1 : flatMapUnion [a, b] = a.intoIterUnion ++ b.intoIterUnion := by
      simp [flatMapUnion]
    have h2 : flatMapUnion [b, a] = b.intoIterUnion ++ a.intoIterUnion := by
      simp [flatMapUnion]
    rw [h1, h2]
    exact List.perm_append_comm
  simp only [Ty.unionsFuel]
  rw [hsort]

/-- Claim C10: `Ty::indexed` on a tuple type is total in the index — in
bounds it returns the element type, out of bounds it returns
`Ty::Never` rather than failing. -/
theorem claim_C10 (su : StructUnion) (xs : List Ty) (i : Nat) :
    Ty.indexed su (Ty.tuple xs) i =
      if h : i < xs.length then xs.get ⟨i, h⟩ else Ty.never := by
  have hidx : Ty.indexed su (Ty.tuple xs) i = xs.getD i Ty.never := by
    simp [Ty.indexed]
  rw [hidx]
  split
  · rename_i h
    exact List.getD_eq_get xs Ty.never h
  · rename_i h
    exact List.getD_eq_default xs Ty.never (Nat.le_of_not_lt h)

end Starlark

namespace Dice

theorem TaskState.isTerminated_iff {s : TaskState} :
    s.isTerminated = true ↔
      (s = TaskState.completed ∨ s = TaskState.failed ∨ s = TaskState.cancelled) := by
  cases s <;> simp [TaskState.isTerminated]

/-- Claim C1: once the future returned by `wait_for_idle()` has resolved
(every task of the pending-cancellation snapshot terminated), a call to
`is_idle()` against that snapshot returns true. -/
theorem claim_C1 (d : DiceModern) (h : waitForIdleResolved d) :
    d.is_idle = true := by
  unfold DiceModern.is_idle
  rw [List.all_eq_true]
  intro t ht
  exact h t ht

theorem claim_C1_witness :
    waitForIdleResolved
      { key_index := []
        state := { initState with tasks := [⟨0, 0, TaskState.completed⟩] }
        global_data := DiceData.new }
    ∧ DiceModern.is_idle
      { key_index := []
        state := { initState with tasks := [⟨0, 0, TaskState.completed⟩] }
        global_data := DiceData.new } = true := by
  constructor
  · intro t ht
    simp only [EngineState.tasksPendingCancellation, List.mem_singleton] at ht
    subst ht
    rfl
  · exact claim_C1 _ (by
      intro t ht
      simp only [EngineState.tasksPendingCancellation, List.mem_singleton] at ht
      subst ht
      rfl)

/-- Claim C4: `is_idle()` returns true exactly when every Pending
Computation Task in the pending-cancellation snapshot has reached a
terminal state of the task state machine. -/
theorem claim_C4 (d : DiceModern) :
    d.is_idle = true ↔
      ∀ t ∈ d.state.tasksPendingCancellation,
        (t.state = TaskState.completed ∨ t.state = TaskState.failed
          ∨ t.state = TaskState.cancelled) := by
  unfold DiceModern.is_idle
  rw [List.all_eq_true]
  constructor
  · intro h t ht
    exact TaskState.isTerminated_iff.mp (h t ht)
  · intro h t ht
    exact TaskState.isTerminated_iff.mpr (h t ht)

/-- Claim C5: the metrics and introspection handlers leave the key
index, the dependency graph, the global data and the version counter
untouched. -/
theorem claim_C5 (s : EngineState) (km : List Nat) :
    ((s.processMetrics).1.keyIndex = s.keyIndex
      ∧ (s.processMetrics).1.graph = s.graph
      ∧ (s.processMetrics).1.globalData = s.globalData
      ∧ (s.processMetrics).1.version = s.version)
    ∧ ((s.processIntrospection km).1.keyIndex = s.keyIndex
      ∧ (s.processIntrospection km).1.graph = s.graph
      ∧ (s.processIntrospection km).1.globalData = s.globalData
      ∧ (s.processIntrospection km).1.version = s.version) :=
  ⟨⟨rfl, rfl, rfl, rfl⟩, ⟨rfl, rfl, rfl, rfl⟩⟩

/-- Claim C6: `commit()` is indivisible — either the actor is shutting
down, the request fails with `EngineShuttingDown` and no staged change
takes effect, or the actor is live and all staged changes take effect
atomically at the newly allocated version. -/
theorem claim_C6 (s : EngineState) (changes : List (Nat × Nat)) :
    (s.shutdown = true
      ∧ s.processCommit changes = (s, Except.error DiceError.engineShuttingDown))
    ∨ (s.shutdown = false
      ∧ s.processCommit changes =
        ({ s with
            version := s.version + 1
            globalData := applyChanges s.globalData changes },
         Except.ok (s.version + 1))) := by
  by_cases h : s.shutdown = true
  · exact Or.inl ⟨h, by simp [EngineState.processCommit, h]⟩
  · rw [Bool.not_eq_true] at h
    exact Or.inr ⟨h, by simp [EngineState.processCommit, h]⟩

/-- The versions successfully allocated by a run of commits are all
above the starting counter, and strictly increase. -/
theorem runCommits_mono :
    ∀ (bs : List (List (Nat × Nat))) (s : EngineState),
      (∀ v ∈ runCommits s bs, s.version < v)
      ∧ (runCommits s bs).Pairwise (· < ·)
  | [], s => ⟨by simp [runCommits], by simp [runCommits]⟩
  | ch :: rest, s => by
    by_cases hs : s.shutdown = true
    · have hpc : s.processCommit ch = (s, .error .engineShuttingDown) := by
        simp [EngineState.processCommit, hs]
      rw [runCommits, hpc]
      exact runCommits_mono rest s
    · rw [Bool.not_eq_true] at hs
      have hpc : s.processCommit ch =
          ({ s with
              version := s.version + 1
              globalData := applyChanges s.globalData ch },
           .ok (s.version + 1)) := by
        simp [EngineState.processCommit, hs]
      rw [runCommits, hpc]
      have ih := runCommits_mono rest
        { s with
            version := s.version + 1
            globalData := applyChanges s.globalData ch }
      constructor
      · intro v hv
        rcases List.mem_cons.mp hv with rfl | hv2
        · omega
        · have := ih.1 v hv2
          simp only at this
          omega
      · refine List.pairwise_cons.mpr ⟨?_, ih.2⟩
        intro v hv
        have := ih.1 v hv
        simp only at this
        omega

/-- Claim C3: over any sequence of commits, the successfully allocated
VersionNumbers strictly increase in commit order and are never
repeated. -/
theorem claim_C3 (s : EngineState) (bs : List (List (Nat × Nat))) :
    (runCommits s bs).Pairwise (· < ·) ∧ (runCommits s bs).Nodup :=
  ⟨(runCommits_mono bs s).2, ((runCommits_mono bs s).2).imp (fun h => Nat.ne_of_lt h)⟩

/-- Claim C2 counterexample: the engine built with cycle detection
enabled still reports `Disabled` from `detect_cycles()` (the source
ignores the builder's `_detect_cycles` argument). -/
theorem claim_C2_counterexample :
    ¬ ((DiceModernDataBuilder.new.build DetectCycles.Enabled).detect_cycles
        = DetectCycles.Enabled) := by
  decide

/-- Claim C2 (amended): `detect_cycles()` returns
`DetectCycles::Disabled` regardless of the setting passed to `build`;
for this engine generation cycle detection is shipped disabled. -/
theorem claim_C2_amended (b : DiceModernDataBuilder) (dc : DetectCycles) :
    (b.build dc).detect_cycles = DetectCycles.Disabled := rfl

end Dice

namespace Dice

theorem countActive_append (l r : List PendingTask) (k v : Nat) :
    countActive (l ++ r) k v = countActive l k v + countActive r k v := by
  simp [countActive, List.filter_append]

theorem countActive_cons (e : PendingTask) (s : List PendingTask) (k v : Nat) :
    countActive (e :: s) k v = countActive [e] k v + countActive s k v := by
  simp only [countActive, List.filter_cons, List.filter_nil]
  split
  · simp only [List.length_cons, List.length_nil]
    omega
  · simp only [List.length_nil]
    omega

theorem countActive_nonmatching {e : PendingTask} {k v : Nat}
    (h : ¬(e.key = k ∧ e.version = v)) : countActive [e] k v = 0 := by
  simp only [countActive, List.filter_cons, List.filter_nil]
  rw [if_neg]
  · rfl
  · simp only [Bool.and_eq_true, decide_eq_true_eq]
    intro hc
    exact h ⟨hc.1.1, hc.1.2⟩

theorem countActive_single_le_one (e : PendingTask) (k v : Nat) :
    countActive [e] k v ≤ 1 := by
  simp only [countActive, List.filter_cons, List.filter_nil]
  split <;> simp

/-- One actor step cannot create a second outstanding task for the same
(key, version) pair. -/
theorem taskStep_countActive_le {s1 s2 : List PendingTask} (h : TaskStep s1 s2)
    (k v : Nat) (hle : countActive s1 k v ≤ 1) : countActive s2 k v ≤ 1 := by
  cases h with
  | spawn _ k0 v0 hguard =>
    rw [countActive_cons]
    by_cases hkv : k0 = k ∧ v0 = v
    · obtain ⟨rfl, rfl⟩ := hkv
      have hzero : countActive s1 k0 v0 = 0 := by
        rw [countActive, List.length_eq_zero, List.filter_eq_nil_iff]
        intro t ht
        simp only [Bool.and_eq_true, decide_eq_true_eq, Bool.not_eq_true']
        rintro ⟨⟨hk, hv⟩, hterm⟩
        rw [hguard t ht hk hv] at hterm
        cases hterm
      rw [hzero]
      have := countActive_single_le_one ⟨k0, v0, TaskState.scheduled⟩ k0 v0
      omega
    · rw [countActive_nonmatching hkv]
      omega
  | advance l r t st htr =>
    obtain ⟨tk, tv, ts⟩ := t
    dsimp only at hle ⊢
    rw [countActive_append, countActive_cons] at hle ⊢
    have hkey : countActive [⟨tk, tv, st⟩] k v ≤ countActive [⟨tk, tv, ts⟩] k v := by
      cases htr with
      | start =>
        by_cases hc : tk = k ∧ tv = v <;>
          simp [countActive, List.filter_cons, TaskState.isTerminated, hc]
      | complete =>
        simp [countActive, List.filter_cons, TaskState.isTerminated]
      | fail =>
        simp [countActive, List.filter_cons, TaskState.isTerminated]
      | cancel =>
        simp [countActive, List.filter_cons, TaskState.isTerminated]
    omega

/-- In every reachable task registry, at most one outstanding task
exists per (key, version) pair. -/
theorem reachable_countActive {s : List PendingTask} (h : ReachableTasks s)
    (k v : Nat) : countActive s k v ≤ 1 := by
  induction h with
  | refl => simp [countActive]
  | tail _ hstep ih => exact taskStep_countActive_le hstep k v ih

theorem countRunning_le_countActive (s : List PendingTask) (k v : Nat) :
    countRunning s k v ≤ countActive s k v := by
  rw [countRunning, countActive]
  refine List.Sublist.length_le (List.monotone_filter_right s ?_)
  intro t ht
  simp only [Bool.and_eq_true, decide_eq_true_eq] at ht ⊢
  refine ⟨⟨ht.1.1, ht.1.2⟩, ?_⟩
  rw [ht.2]
  rfl

/-- Claim C7: in every reachable registry at most one task per
(key, version) pair is in the `Running` state, and a second lookup of
the same pair (with no intervening step) awaits the very same task and
returns the same result. -/
theorem claim_C7 (s : List PendingTask) (h : ReachableTasks s) :
    (∀ k v, countRunning s k v ≤ 1)
    ∧ (∀ k v, lookupTask (lookupTask s k v).1 k v = lookupTask s k v) := by
  constructor
  · intro k v
    exact le_trans (countRunning_le_countActive s k v) (reachable_countActive h k v)
  · intro k v
    cases hf : findActiveTask s k v with
    | some t =>
      have h1 : lookupTask s k v = (s, t) := by
        rw [lookupTask, hf]
      rw [h1]
      exact h1
    | none =>
      have h1 : lookupTask s k v
          = (⟨k, v, TaskState.scheduled⟩ :: s, ⟨k, v, TaskState.scheduled⟩) := by
        rw [lookupTask, hf]
      rw [h1]
      have h2 : findActiveTask (⟨k, v, TaskState.scheduled⟩ :: s) k v
          = some ⟨k, v, TaskState.scheduled⟩ := by
        simp [findActiveTask, List.find?, TaskState.isTerminated]
      rw [lookupTask, h2]

theorem claim_C7_witness :
    (∀ k v, countRunning [] k v ≤ 1)
    ∧ (∀ k v, lookupTask (lookupTask [] k v).1 k v = lookupTask [] k v) :=
  claim_C7 [] Relation.ReflTransGen.refl

end Dice

namespace Starlark

theorem claim_C8_witness :
    (∀ x y : Nat, x ≠ y →
      (fun x y : Nat => if x = y then Sum.inl x else Sum.inr (x, y)) x y
        = Sum.inr (x, y))
    ∧ Ty.unions (fun x y : Nat => if x = y then Sum.inl x else Sum.inr (x, y))
        [Ty.struct 0, Ty.struct 1] = Ty.union [Ty.struct 0, Ty.struct 1]
    ∧ ((∀ l, Ty.unions (fun x y : Nat => if x = y then Sum.inl x else Sum.inr (x, y))
          [Ty.struct 0, Ty.struct 1] = Ty.union l →
        2 ≤ l.length ∧ l.Nodup ∧ Ty.never ∉ l ∧ ∀ t ∈ l, t.isUnion = false)
      ∧ (([Ty.struct 0, Ty.struct 1] = ([] : List Ty)
          ∨ ∀ t ∈ [Ty.struct 0, Ty.struct 1], t = Ty.never) →
        Ty.unions (fun x y : Nat => if x = y then Sum.inl x else Sum.inr (x, y))
          [Ty.struct 0, Ty.struct 1] = Ty.never)
      ∧ (Ty.any ∈ flatMapUnion [Ty.struct 0, Ty.struct 1] →
        Ty.unions (fun x y : Nat => if x = y then Sum.inl x else Sum.inr (x, y))
          [Ty.struct 0, Ty.struct 1] = Ty.any)) :=
  ⟨fun _ _ h => by simp only [if_neg h],
   rfl,
   claim_C8 _ (fun _ _ h => by simp only [if_neg h]) _ (by
     intro t ht us hu u huu
     simp only [List.mem_cons, List.not_mem_nil, or_false] at ht
     rcases ht with rfl | rfl <;> cases hu)⟩

end Starlark
